import Mathlib

/-!
The `netmask6()` filter of syslog-ng (`lib/filter-netmask6.c`).

A shallow embedding of the IPv6 network filter: the construction of a filter
node from a CIDR literal (`filter_netmask6_new`) and its evaluation on a log
message (`_eval`), with the masking routine `_get_network_address` they share.

Conventions of the embedding.

* An octet is a `Nat` below 256; a `struct in6_addr` is the list of its 16
  octets in memory order (`is_in6_addr`).
* A `uint64_t` is a `Nat` below `2 ^ 64`; operations that can leave that range
  reduce modulo `2 ^ 64`.
* A C string is the list of its characters before the terminating NUL.
* A step whose behaviour the C language leaves undefined (a shift by a count
  outside `0..63`, a write past the end of the `address` buffer) yields `none`.
* The host byte order `G_BYTE_ORDER` is a parameter of every definition that
  depends on it; `long` has 64 bits and `int` 32 (the LP64 data model).
-/

namespace Netmask6

/-! ## Platform -/

/-- The two values of glib's `G_BYTE_ORDER` that the source distinguishes. -/
inductive ByteOrder
  | G_LITTLE_ENDIAN
  | G_BIG_ENDIAN
  deriving DecidableEq, Repr

/-- Value of a sequence of octets read as a little-endian number. -/
def load_le : List Nat → Nat
  | [] => 0
  | b :: bs => b + 256 * load_le bs

/-- The `n` low octets of `w`, least significant first. -/
def store_le : Nat → Nat → List Nat
  | 0, _ => []
  | n + 1, w => w % 256 :: store_le n (w / 256)

/-- Reading a `uint64_t` out of eight octets of memory (`memcpy` into the
word) on a host of the given byte order. -/
def load64 (bo : ByteOrder) (bs : List Nat) : Nat :=
  match bo with
  | .G_LITTLE_ENDIAN => load_le bs
  | .G_BIG_ENDIAN => load_le bs.reverse

/-- The eight octets a `uint64_t` occupies in memory on a host of the given
byte order. -/
def store64 (bo : ByteOrder) (w : Nat) : List Nat :=
  match bo with
  | .G_LITTLE_ENDIAN => store_le 8 w
  | .G_BIG_ENDIAN => (store_le 8 w).reverse

/-- The glib macro `GUINT64_SWAP_LE_BE`: the 64-bit value whose eight octets
are those of `val` in the opposite order. -/
def GUINT64_SWAP_LE_BE (val : Nat) : Nat :=
  load_le (store_le 8 val).reverse

/-- The C library `memcpy(dst, src, n)`: the first `n` octets of `dst` are
replaced by those of `src`. -/
def memcpy (dst src : List Nat) (n : Nat) : List Nat :=
  src.take n ++ dst.drop n

/-! ## Addresses -/

/-- A well-formed `struct in6_addr`: sixteen octets. -/
def is_in6_addr (a : List Nat) : Prop :=
  a.length = 16 ∧ ∀ b ∈ a, b < 256

instance (a : List Nat) : Decidable (is_in6_addr a) := by
  unfold is_in6_addr; infer_instance

/-- Bit `i` of an address, counted from the most significant bit of octet 0. -/
def in6_bit (a : List Nat) (i : Nat) : Bool :=
  (a.getD (i / 8) 0).testBit (7 - i % 8)

/-- The C library constant `in6addr_loopback`, the address `::1`. -/
def in6addr_loopback : List Nat :=
  [0, 0, 0, 0, 0, 0, 0, 0, 0, 0, 0, 0, 0, 0, 0, 1]

/-- A zero-filled `struct in6_addr` (from `g_new0` or `memset`). -/
def in6_zero : List Nat :=
  List.replicate 16 0

/-! ## Masking (`filter-netmask6.c`, lines 47-86) -/

/-- Source: `(uint64_t) (~0) << (64 - prefix)`. The shift is defined only for
a count in `0..63`. -/
def _calculate_mask_by_prefix (prefix_ : Int) : Option Nat :=
  if 0 ≤ 64 - prefix_ ∧ 64 - prefix_ < 64 then
    some (((2 ^ 64 - 1) <<< (64 - prefix_).toNat) % 2 ^ 64)
  else
    none

/-- Source: `_mask`, with its branch on `G_BYTE_ORDER`. -/
def _mask (bo : ByteOrder) (base mask : Nat) : Nat :=
  match bo with
  | .G_BIG_ENDIAN => GUINT64_SWAP_LE_BE (base &&& mask)
  | .G_LITTLE_ENDIAN => GUINT64_SWAP_LE_BE (GUINT64_SWAP_LE_BE base &&& mask)

/-- Source: `_get_network_address`. `ipv6` is the address read, `network` the
content of the destination before the call; the result is the content of the
destination after it. The local `ipv6_parts` is the pair `(lo, hi)`, whose
memory image is `store64 bo lo ++ store64 bo hi`. -/
def _get_network_address (bo : ByteOrder) (ipv6 : List Nat) (prefix_ : Int)
    (network : List Nat) : Option (List Nat) :=
  let lo := load64 bo (ipv6.take 8)
  let hi := load64 bo ((ipv6.drop 8).take 8)
  if prefix_ ≤ 64 then
    ( _calculate_mask_by_prefix prefix_).map fun m =>
      memcpy network (store64 bo (_mask bo lo m) ++ store64 bo hi) 8
  else
    ( _calculate_mask_by_prefix (prefix_ - 64)).map fun m =>
      memcpy network (store64 bo lo ++ store64 bo (_mask bo hi m)) 16

/-- Source: `_in6_addr_compare`, a `memcmp` over the 16 octets. -/
def _in6_addr_compare (address1 address2 : List Nat) : Bool :=
  decide (address1.take 16 = address2.take 16)

/-! ## Filter nodes and messages -/

/-- The part of `FilterExprNode` the filter reads: the negation flag `comp`. -/
structure FilterExprNode where
  comp : Bool
  deriving DecidableEq, Repr

/-- Source: `struct _FilterNetmask6`; `prefix_` is its field `prefix`. -/
structure FilterNetmask6 where
  super : FilterExprNode
  address : List Nat
  prefix_ : Int
  is_valid : Bool
  deriving DecidableEq, Repr

def AF_UNIX : Nat := 1

def AF_INET : Nat := 2

def AF_INET6 : Nat := 10

/-- A socket address: its family and the octets at the place of `sin6_addr`. -/
structure GSockAddr where
  sa_family : Nat
  sin6_addr : List Nat
  deriving DecidableEq, Repr

/-- Modelled from the spec: `g_sockaddr_inet6_check` is declared in
`gsocket.h`, which is not among the sources; it holds when "the event carries
an explicit IPv6 socket address". -/
def g_sockaddr_inet6_check (a : GSockAddr) : Bool :=
  a.sa_family == AF_INET6

/-- The part of `LogMessage` the filter reads: the source address, if any. -/
structure LogMessage where
  saddr : Option GSockAddr
  deriving DecidableEq, Repr

/-! ## Evaluation (`filter-netmask6.c`, lines 94-124) -/

/-- Source: `_eval`; `msg` is `msgs[0]`. -/
def _eval (bo : ByteOrder) (self : FilterNetmask6) (msg : LogMessage) : Option Bool :=
  if !self.is_valid then
    some self.super.comp
  else
    let candidate : Option (List Nat) :=
      match msg.saddr with
      | some sa =>
        if g_sockaddr_inet6_check sa then some sa.sin6_addr
        else if sa.sa_family = AF_UNIX then some in6addr_loopback
        else none
      | none => some in6addr_loopback
    match candidate with
    | none => some self.super.comp
    | some address =>
      ( _get_network_address bo address self.prefix_ in6_zero).map fun network_address =>
        xor ( _in6_addr_compare network_address self.address) self.super.comp

/-! ## C library routines used by the constructor -/

def INET6_ADDRSTRLEN : Nat := 46

/-- The C library `isspace` in the "C" locale. -/
def isspace (c : Char) : Bool :=
  c.toNat = 32 ∨ (9 ≤ c.toNat ∧ c.toNat ≤ 13)

/-- The C library `isdigit`. -/
def isdigit (c : Char) : Bool :=
  48 ≤ c.toNat ∧ c.toNat ≤ 57

/-- Value of the leading run of decimal digits, continuing from `acc`. -/
def digits_value (acc : Nat) : List Char → Nat
  | [] => acc
  | c :: cs => if isdigit c then digits_value (acc * 10 + (c.toNat - 48)) cs else acc

def LONG_MAX : Int := 2 ^ 63 - 1

def LONG_MIN : Int := -(2 ^ 63)

/-- The C library `atol` (as `strtol (s, NULL, 10)`): leading white space, an
optional sign, then decimal digits up to the first other character; a value
outside the range of `long` is clamped. -/
def atol (s : List Char) : Int :=
  match s.dropWhile isspace with
  | '-' :: t => max LONG_MIN (-(digits_value 0 t : Int))
  | '+' :: t => min LONG_MAX (digits_value 0 t : Int)
  | t => min LONG_MAX (digits_value 0 t : Int)

/-- Conversion of a `long` to `int` (the assignment to `self->prefix`): the
value modulo `2 ^ 32`, read as a signed 32-bit number. -/
def long_to_int (v : Int) : Int :=
  (v + 2 ^ 31) % 2 ^ 32 - 2 ^ 31

/-- The C library `strchr (s, c)`, as the offset of the first `c` in `s`. -/
def strchr : List Char → Char → Option Nat
  | [], _ => none
  | x :: xs, c => if x = c then some 0 else (strchr xs c).map (· + 1)

/-- The C library `strlen`. -/
def strlen (s : List Char) : Nat :=
  s.length

/-- The C library `strcpy` into a buffer of `size` octets: `strlen src + 1`
octets are written, and the buffer then holds the string `src`. -/
def strcpy (size : Nat) (src : List Char) : Option (List Char) :=
  if strlen src + 1 ≤ size then some src else none

/-- The C library `strncpy (dst, src, n)` for `n ≤ strlen src`, into a
zero-filled buffer of `size` octets: `n` octets are written, and the buffer
then holds the first `n` characters of `src`. -/
def strncpy (size : Nat) (src : List Char) (n : Nat) : Option (List Char) :=
  if n ≤ size then some (src.take n) else none

/-- The assignment `dst[n] = 0` into a buffer of `size` octets that holds the
string `dst`. -/
def set_nul (size : Nat) (dst : List Char) (n : Nat) : Option (List Char) :=
  if n < size then some (dst.take n) else none

/-! ## Construction (`filter-netmask6.c`, lines 126-157) -/

/-- Source: `filter_netmask6_new`. `inet_pton` stands for the C library call
`inet_pton (AF_INET6, ·, &packet_addr)`: `some a` when it returns 1 and stores
`a`. The node comes from `g_new0`, so `comp` starts as `false`. -/
def filter_netmask6_new (bo : ByteOrder) (inet_pton : List Char → Option (List Nat))
    (cidr : List Char) : Option FilterNetmask6 :=
  let slash := strchr cidr '/'
  let copied : Option (List Char × Int) :=
    if strlen cidr ≥ INET6_ADDRSTRLEN + 5 ∨ slash = none then
      (strcpy INET6_ADDRSTRLEN cidr).map fun address => (address, 128)
    else
      let prefix_ := long_to_int (atol (cidr.drop (slash.getD 0 + 1)))
      if prefix_ > 0 ∧ prefix_ < 129 then
        ((strncpy INET6_ADDRSTRLEN cidr (slash.getD 0)).bind fun address =>
          set_nul INET6_ADDRSTRLEN address (slash.getD 0)).map fun address =>
            (address, prefix_)
      else
        some ([], prefix_)
  copied.bind fun (address, prefix_) =>
    match (if strlen address > 0 then inet_pton address else none) with
    | some packet_addr =>
      ( _get_network_address bo packet_addr prefix_ in6_zero).map fun network =>
        { super := { comp := false }, address := network, prefix_ := prefix_, is_valid := true }
    | none =>
      some { super := { comp := false }, address := in6addr_loopback, prefix_ := prefix_,
             is_valid := false }

/-- Source: lines 131-147 of `filter_netmask6_new`, the part that fills the
buffer `address` and sets `self->prefix`: the string the buffer holds and the
prefix afterwards, `none` when a write falls outside the buffer. -/
def address_copy (cidr : List Char) : Option (List Char × Int) :=
  let slash := strchr cidr '/'
  if strlen cidr ≥ INET6_ADDRSTRLEN + 5 ∨ slash = none then
    (strcpy INET6_ADDRSTRLEN cidr).map fun address => (address, 128)
  else
    let prefix_ := long_to_int (atol (cidr.drop (slash.getD 0 + 1)))
    if prefix_ > 0 ∧ prefix_ < 129 then
      ((strncpy INET6_ADDRSTRLEN cidr (slash.getD 0)).bind fun address =>
        set_nul INET6_ADDRSTRLEN address (slash.getD 0)).map fun address =>
          (address, prefix_)
    else
      some ([], prefix_)

/-- Source: lines 74-83 of `_get_network_address`: the argument of its one
call of `_calculate_mask_by_prefix`. -/
def mask_argument (prefix_ : Int) : Int :=
  if prefix_ ≤ 64 then prefix_ else prefix_ - 64

/-! ## A reference `inet_pton` for concrete runs

The general results take `inet_pton` as a parameter. The routine below follows
the usual C library implementation (`inet_pton6` and `inet_pton4`) and is used
only to run the constructor on concrete literals. -/

/-- Value of a hexadecimal digit. -/
def hex_digit_value (c : Char) : Option Nat :=
  if 48 ≤ c.toNat ∧ c.toNat ≤ 57 then some (c.toNat - 48)
  else if 97 ≤ c.toNat ∧ c.toNat ≤ 102 then some (c.toNat - 87)
  else if 65 ≤ c.toNat ∧ c.toNat ≤ 70 then some (c.toNat - 55)
  else none

/-- The loop of the C library `inet_pton4` over the remaining text: the octets
completed so far, the octet being read, whether it has a digit yet, and the
number of octets started. -/
def inet_pton4_loop : List Char → List Nat → Nat → Bool → Nat → Option (List Nat)
  | [], done, cur, _, octets => if octets < 4 then none else some (done ++ [cur])
  | ch :: src, done, cur, saw_digit, octets =>
    if isdigit ch then
      if saw_digit ∧ cur = 0 then none
      else if cur * 10 + (ch.toNat - 48) > 255 then none
      else if ¬ saw_digit ∧ octets + 1 > 4 then none
      else inet_pton4_loop src done (cur * 10 + (ch.toNat - 48)) true
        (if saw_digit then octets else octets + 1)
    else if ch = '.' ∧ saw_digit then
      if octets = 4 then none
      else inet_pton4_loop src (done ++ [cur]) 0 false octets
    else none

/-- The C library `inet_pton4`: dotted-quad text to four octets. -/
def inet_pton4 (src : List Char) : Option (List Nat) :=
  inet_pton4_loop src [] 0 false 0

/-- The loop of the C library `inet_pton6`: `tp` holds the octets written so
far, `colonp` the offset of a `::`, `curtok` the text from the start of the
current group. The result is `tp`, `colonp` and the pending group. -/
def inet_pton6_loop :
    List Char → List Char → List Nat → Option Nat → Nat → Nat →
      Option (List Nat × Option Nat × Nat × Nat)
  | [], _, tp, colonp, seen, val => some (tp, colonp, seen, val)
  | ch :: src, curtok, tp, colonp, seen, val =>
    match hex_digit_value ch with
    | some digit =>
      if seen = 4 then none
      else if val * 16 + digit > 65535 then none
      else inet_pton6_loop src curtok tp colonp (seen + 1) (val * 16 + digit)
    | none =>
      if ch = ':' then
        if seen = 0 then
          if colonp.isSome then none
          else inet_pton6_loop src src tp (some tp.length) 0 val
        else if src = [] then none
        else if tp.length + 2 > 16 then none
        else inet_pton6_loop src src (tp ++ [val / 256 % 256, val % 256]) colonp 0 0
      else if ch = '.' ∧ tp.length + 4 ≤ 16 then
        (inet_pton4 curtok).map fun quad => (tp ++ quad, colonp, 0, val)
      else none

/-- The C library `inet_pton (AF_INET6, src, dst)`: `some` of the sixteen
octets stored when the call returns 1. -/
def inet_pton6 (src : List Char) : Option (List Nat) :=
  let start : Option (List Char) :=
    match src with
    | [] => none
    | ':' :: rest => (match rest with
      | ':' :: _ => some rest
      | _ => none)
    | _ => some src
  start.bind fun s =>
    (inet_pton6_loop s s [] none 0 0).bind fun (tp0, colonp, seen, val) =>
      let grp : Option (List Nat) :=
        if seen > 0 then
          if tp0.length + 2 > 16 then none else some (tp0 ++ [val / 256 % 256, val % 256])
        else some tp0
      grp.bind fun tp =>
        match colonp with
        | some c =>
          if tp.length = 16 then none
          else some (tp.take c ++ List.replicate (16 - tp.length) 0 ++ tp.drop c)
        | none => if tp.length = 16 then some tp else none

/-! ## Closed forms used in the proofs -/

/-- The eight octets `b` with the word mask `m` applied in network order. -/
def masked (b : List Nat) (m : Nat) : List Nat :=
  (store_le 8 (load_le b.reverse &&& m)).reverse

/-- Octet order of a masked word as the host of byte order `bo` leaves it. -/
def host_view (bo : ByteOrder) (l : List Nat) : List Nat :=
  match bo with
  | .G_LITTLE_ENDIAN => l
  | .G_BIG_ENDIAN => l.reverse

/-- The word mask for a prefix of `n` bits within one 64-bit word. -/
def word_mask (n : Nat) : Nat :=
  ((2 ^ 64 - 1) <<< (64 - n)) % 2 ^ 64

/-- What `_get_network_address` leaves in a zero-filled destination. -/
def network_of (bo : ByteOrder) (a : List Nat) (p : Nat) : List Nat :=
  if p ≤ 64 then host_view bo (masked (a.take 8) (word_mask p)) ++ List.replicate 8 0
  else a.take 8 ++ host_view bo (masked (a.drop 8) (word_mask (p - 64)))

/-! ## Octets and words -/

theorem store_le_length (n w : Nat) : (store_le n w).length = n := by
  induction n generalizing w with
  | zero => rfl
  | succ n ih => simp [store_le, ih]

theorem store_le_lt (n w : Nat) : ∀ b ∈ store_le n w, b < 256 := by
  induction n generalizing w with
  | zero => simp [store_le]
  | succ n ih =>
    intro b hb
    simp only [store_le, List.mem_cons] at hb
    rcases hb with rfl | hb
    · exact Nat.mod_lt _ (by norm_num)
    · exact ih _ b hb

theorem store_le_load_le (bs : List Nat) (h : ∀ b ∈ bs, b < 256) :
    store_le bs.length (load_le bs) = bs := by
  induction bs with
  | nil => rfl
  | cons b bs ih =>
    have hb : b < 256 := h b (List.mem_cons_self _ _)
    have ht : ∀ x ∈ bs, x < 256 := fun x hx => h x (List.mem_cons_of_mem _ hx)
    simp only [List.length_cons, store_le, load_le]
    have h1 : (b + 256 * load_le bs) % 256 = b := by omega
    have h2 : (b + 256 * load_le bs) / 256 = load_le bs := by omega
    rw [h1, h2, ih ht]

theorem store_le_getD (n w k : Nat) (h : k < n) :
    (store_le n w).getD k 0 = w / 256 ^ k % 256 := by
  induction n generalizing w k with
  | zero => omega
  | succ n ih =>
    cases k with
    | zero => simp [store_le]
    | succ k =>
      simp only [store_le, List.getD_cons_succ]
      rw [ih (w / 256) k (by omega), Nat.div_div_eq_div_mul, pow_succ, Nat.mul_comm]

theorem testBit_load_le (bs : List Nat) (h : ∀ b ∈ bs, b < 256) (j : Nat) :
    (load_le bs).testBit j = (bs.getD (j / 8) 0).testBit (j % 8) := by
  induction bs generalizing j with
  | nil => simp [load_le]
  | cons b bs ih =>
    have hb : b < 2 ^ 8 := h b (List.mem_cons_self _ _)
    have ht : ∀ x ∈ bs, x < 256 := fun x hx => h x (List.mem_cons_of_mem _ hx)
    have e : load_le (b :: bs) = 2 ^ 8 * load_le bs + b := by simp [load_le]; omega
    rw [e, Nat.testBit_mul_pow_two_add _ hb]
    by_cases hj : j < 8
    · have : j / 8 = 0 := by omega
      have h2 : j % 8 = j := by omega
      simp [hj, this, h2]
    · obtain ⟨q, hq⟩ : ∃ q, j / 8 = q + 1 := ⟨j / 8 - 1, by omega⟩
      have h1 : (j - 8) / 8 = q := by omega
      have h2 : (j - 8) % 8 = j % 8 := by omega
      simp [hj, hq, ih ht, h1, h2]

theorem swap_load_le (b : List Nat) (hl : b.length = 8) (h : ∀ x ∈ b, x < 256) :
    GUINT64_SWAP_LE_BE (load_le b) = load_le b.reverse := by
  unfold GUINT64_SWAP_LE_BE
  rw [← hl, store_le_load_le b h]

theorem store_le_swap (x : Nat) :
    store_le 8 (GUINT64_SWAP_LE_BE x) = (store_le 8 x).reverse := by
  unfold GUINT64_SWAP_LE_BE
  have := store_le_load_le (store_le 8 x).reverse
    (fun b hb => store_le_lt 8 x b (List.mem_reverse.mp hb))
  simpa [store_le_length] using this

/-! ## The masked word in memory -/

theorem masked_length (b : List Nat) (m : Nat) : (masked b m).length = 8 := by
  simp [masked, store_le_length]

theorem masked_lt (b : List Nat) (m : Nat) : ∀ x ∈ masked b m, x < 256 := by
  intro x hx
  exact store_le_lt 8 _ x (List.mem_reverse.mp hx)

theorem host_view_length (bo : ByteOrder) (l : List Nat) : (host_view bo l).length = l.length := by
  cases bo <;> simp [host_view]

theorem host_view_inj (bo : ByteOrder) (l l' : List Nat) :
    host_view bo l = host_view bo l' ↔ l = l' := by
  cases bo <;> simp [host_view]

theorem store64_load64 (bo : ByteOrder) (b : List Nat) (hl : b.length = 8)
    (h : ∀ x ∈ b, x < 256) : store64 bo (load64 bo b) = b := by
  cases bo
  · simp only [store64, load64]
    rw [← hl]; exact store_le_load_le b h
  · simp only [store64, load64]
    have := store_le_load_le b.reverse (fun x hx => h x (List.mem_reverse.mp hx))
    rw [List.length_reverse, hl] at this
    rw [this, List.reverse_reverse]

theorem store64_mask_load64 (bo : ByteOrder) (b : List Nat) (m : Nat) (hl : b.length = 8)
    (h : ∀ x ∈ b, x < 256) :
    store64 bo (_mask bo (load64 bo b) m) = host_view bo (masked b m) := by
  cases bo
  · simp only [store64, load64, _mask, host_view, masked]
    rw [swap_load_le b hl h, store_le_swap]
  · simp only [store64, load64, _mask, host_view, masked]
    rw [store_le_swap]

theorem store64_length (bo : ByteOrder) (w : Nat) : (store64 bo w).length = 8 := by
  cases bo <;> simp [store64, store_le_length]

theorem calculate_mask_eq (n : Nat) (h1 : 1 ≤ n) (h2 : n ≤ 64) :
    _calculate_mask_by_prefix (n : Int) = some (word_mask n) := by
  unfold _calculate_mask_by_prefix word_mask
  have hc : (0 : Int) ≤ 64 - (n : Int) ∧ (64 : Int) - (n : Int) < 64 := by omega
  rw [if_pos hc]
  have : ((64 : Int) - (n : Int)).toNat = 64 - n := by omega
  rw [this]

theorem word_mask_testBit (n t : Nat) :
    (word_mask n).testBit t = decide (64 - n ≤ t ∧ t < 64) := by
  unfold word_mask
  rw [Nat.testBit_mod_two_pow, Nat.testBit_shiftLeft, Nat.testBit_two_pow_sub_one]
  by_cases h : t < 64 <;> by_cases h' : 64 - n ≤ t <;> simp [h, h']
  omega

theorem masked_testBit (b : List Nat) (m k j : Nat) (hl : b.length = 8)
    (h : ∀ x ∈ b, x < 256) (hk : k < 8) (hj : j < 8) :
    ((masked b m).getD k 0).testBit j
      = ((b.getD k 0).testBit j && m.testBit (8 * (7 - k) + j)) := by
  unfold masked
  have hlen : (store_le 8 (load_le b.reverse &&& m)).length = 8 := store_le_length _ _
  rw [List.getD_eq_getElem _ _ (by simp [hlen]; exact hk), List.getElem_reverse,
    ← List.getD_eq_getElem _ 0, hlen, store_le_getD _ _ _ (by omega)]
  have e : (256 : Nat) ^ (8 - 1 - k) = 2 ^ (8 * (7 - k)) := by
    rw [show (256 : Nat) = 2 ^ 8 by norm_num, ← pow_mul]
  have e2 : (256 : Nat) = 2 ^ 8 := by norm_num
  rw [e, ← Nat.shiftRight_eq_div_pow, e2, Nat.testBit_mod_two_pow, Nat.testBit_shiftRight,
    Nat.testBit_and, testBit_load_le _ (fun x hx => h x (List.mem_reverse.mp hx))]
  have h1 : (8 * (7 - k) + j) / 8 = 7 - k := by omega
  have h2 : (8 * (7 - k) + j) % 8 = j := by omega
  rw [h1, h2]
  have hr : b.reverse.getD (7 - k) 0 = b.getD k 0 := by
    rw [List.getD_eq_getElem _ _ (by simp [hl]; omega), List.getElem_reverse,
      List.getD_eq_getElem _ _ (by omega)]
    congr 1
    simp [hl]; omega
  rw [hr]
  simp [hj]

/-! ## The network address in closed form -/

theorem get_network_address_eq (bo : ByteOrder) (a : List Nat) (p : Nat)
    (ha : is_in6_addr a) (h1 : 1 ≤ p) (h2 : p ≤ 128) :
    _get_network_address bo a (p : Int) in6_zero = some (network_of bo a p) := by
  obtain ⟨hl, hb⟩ := ha
  have ht : (a.take 8).length = 8 := by simp [hl]
  have hd : (a.drop 8).length = 8 := by simp [hl]
  have htb : ∀ x ∈ a.take 8, x < 256 := fun x hx => hb x (List.mem_of_mem_take hx)
  have hdb : ∀ x ∈ a.drop 8, x < 256 := fun x hx => hb x (List.mem_of_mem_drop hx)
  have hdt : (a.drop 8).take 8 = a.drop 8 := List.take_of_length_le (by omega)
  unfold _get_network_address network_of
  by_cases hp : p ≤ 64
  · have hp' : (p : Int) ≤ 64 := by omega
    rw [if_pos hp', if_pos hp, calculate_mask_eq p h1 hp]
    simp only [Option.map_some', memcpy]
    rw [List.take_left' (store64_length _ _), store64_mask_load64 bo _ _ ht htb]
    rfl
  · have hp' : ¬ (p : Int) ≤ 64 := by omega
    have hc : (p : Int) - 64 = ((p - 64 : Nat) : Int) := by omega
    rw [if_neg hp', if_neg hp, hc, calculate_mask_eq (p - 64) (by omega) (by omega), hdt]
    simp only [Option.map_some', memcpy]
    rw [List.take_of_length_le (by simp [store64_length]),
      store64_load64 bo _ ht htb, store64_mask_load64 bo _ _ hd hdb]
    simp [in6_zero]

theorem network_of_is_in6_addr (bo : ByteOrder) (a : List Nat) (p : Nat) (ha : is_in6_addr a) :
    is_in6_addr (network_of bo a p) := by
  obtain ⟨hl, hb⟩ := ha
  have hv : ∀ m l, ∀ x ∈ host_view bo (masked l m), x < 256 := by
    intro m l x hx
    cases bo
    · exact masked_lt _ _ x hx
    · exact masked_lt _ _ x (List.mem_reverse.mp hx)
  unfold network_of
  split
  · refine ⟨by simp [host_view_length, masked_length], ?_⟩
    intro x hx
    rcases List.mem_append.mp hx with h | h
    · exact hv _ _ x h
    · rw [(List.mem_replicate.mp h).2]; norm_num
  · refine ⟨by simp [host_view_length, masked_length, hl], ?_⟩
    intro x hx
    rcases List.mem_append.mp hx with h | h
    · exact hb x (List.mem_of_mem_take h)
    · exact hv _ _ x h

theorem network_of_bit (a : List Nat) (p i : Nat) (ha : is_in6_addr a) (hi : i < 128) :
    in6_bit (network_of .G_LITTLE_ENDIAN a p) i = (decide (i < p) && in6_bit a i) := by
  obtain ⟨hl, hb⟩ := ha
  have ht : (a.take 8).length = 8 := by simp [hl]
  have hd : (a.drop 8).length = 8 := by simp [hl]
  have htb : ∀ x ∈ a.take 8, x < 256 := fun x hx => hb x (List.mem_of_mem_take hx)
  have hdb : ∀ x ∈ a.drop 8, x < 256 := fun x hx => hb x (List.mem_of_mem_drop hx)
  unfold network_of in6_bit host_view
  by_cases hp : p ≤ 64
  · rw [if_pos hp]
    by_cases h64 : i < 64
    · rw [List.getD_append _ _ _ _ (by rw [masked_length]; omega),
        masked_testBit _ _ _ _ ht htb (by omega) (by omega), word_mask_testBit]
      have e : (a.take 8).getD (i / 8) 0 = a.getD (i / 8) 0 := by
        simp [List.getElem?_take, show i / 8 < 8 by omega]
      rw [e, Bool.and_comm]
      congr 1
      simp only [decide_eq_decide]
      omega
    · rw [List.getD_append_right _ _ _ _ (by rw [masked_length]; omega)]
      have hz : ∀ k, (List.replicate 8 0).getD k 0 = 0 := by
        intro k
        rw [List.getD_eq_getElem?_getD, List.getElem?_replicate]
        split <;> rfl
      have : decide (i < p) = false := by simp; omega
      rw [hz, this]
      simp
  · rw [if_neg hp]
    by_cases h64 : i < 64
    · rw [List.getD_append _ _ _ _ (by rw [ht]; omega)]
      have e : (a.take 8).getD (i / 8) 0 = a.getD (i / 8) 0 := by
        simp [List.getElem?_take, show i / 8 < 8 by omega]
      have : decide (i < p) = true := by simp; omega
      rw [e, this, Bool.true_and]
    · rw [List.getD_append_right _ _ _ _ (by rw [ht]; omega), ht,
        masked_testBit _ _ _ _ hd hdb (by omega) (by omega), word_mask_testBit]
      have e : (a.drop 8).getD (i / 8 - 8) 0 = a.getD (i / 8) 0 := by
        simp [List.getElem?_drop, show 8 + (i / 8 - 8) = i / 8 by omega]
      rw [e, Bool.and_comm]
      congr 1
      simp only [decide_eq_decide]
      omega

theorem in6_addr_ext (a b : List Nat) (ha : is_in6_addr a) (hb : is_in6_addr b)
    (h : ∀ i, i < 128 → in6_bit a i = in6_bit b i) : a = b := by
  obtain ⟨hla, hba⟩ := ha
  obtain ⟨hlb, hbb⟩ := hb
  apply List.ext_getElem (by omega)
  intro k hk1 hk2
  apply Nat.eq_of_testBit_eq
  intro j
  by_cases hj : j < 8
  · have := h (8 * k + (7 - j)) (by omega)
    unfold in6_bit at this
    have e1 : (8 * k + (7 - j)) / 8 = k := by omega
    have e2 : 7 - (8 * k + (7 - j)) % 8 = j := by omega
    rw [e1, e2, List.getD_eq_getElem _ _ hk1, List.getD_eq_getElem _ _ hk2] at this
    exact this
  · have h1 : a[k] < 2 ^ j :=
      lt_of_lt_of_le (hba _ (List.getElem_mem _)) (by
        calc 256 = 2 ^ 8 := by norm_num
          _ ≤ 2 ^ j := Nat.pow_le_pow_right (by norm_num) (by omega))
    have h2 : b[k] < 2 ^ j :=
      lt_of_lt_of_le (hbb _ (List.getElem_mem _)) (by
        calc 256 = 2 ^ 8 := by norm_num
          _ ≤ 2 ^ j := Nat.pow_le_pow_right (by norm_num) (by omega))
    rw [Nat.testBit_lt_two_pow h1, Nat.testBit_lt_two_pow h2]

theorem network_of_eq_iff_little (bo : ByteOrder) (a c : List Nat) (p : Nat)
    (ha : is_in6_addr a) (hc : is_in6_addr c) :
    network_of bo c p = network_of bo a p ↔
      network_of .G_LITTLE_ENDIAN c p = network_of .G_LITTLE_ENDIAN a p := by
  have hta : (a.take 8).length = 8 := by simp [ha.1]
  have htc : (c.take 8).length = 8 := by simp [hc.1]
  unfold network_of
  by_cases hp : p ≤ 64
  · simp only [if_pos hp, List.append_left_inj, host_view_inj]
  · simp only [if_neg hp]
    constructor
    · intro h
      obtain ⟨h1, h2⟩ := List.append_inj h (by rw [hta, htc])
      rw [h1, (host_view_inj bo _ _).mp h2]
    · intro h
      obtain ⟨h1, h2⟩ := List.append_inj h (by rw [hta, htc])
      rw [h1, (host_view_inj _ _ _).mp h2]

theorem network_of_eq_iff (bo : ByteOrder) (a c : List Nat) (p : Nat)
    (ha : is_in6_addr a) (hc : is_in6_addr c) (h2 : p ≤ 128) :
    network_of bo c p = network_of bo a p ↔ ∀ i, i < p → in6_bit c i = in6_bit a i := by
  rw [network_of_eq_iff_little bo a c p ha hc]
  constructor
  · intro h i hi
    have hb := congrArg (fun l => in6_bit l i) h
    simp only [network_of_bit _ _ _ hc (show i < 128 by omega),
      network_of_bit _ _ _ ha (show i < 128 by omega), hi, decide_True, Bool.true_and] at hb
    exact hb
  · intro h
    apply in6_addr_ext _ _ (network_of_is_in6_addr _ _ _ hc) (network_of_is_in6_addr _ _ _ ha)
    intro i hi
    rw [network_of_bit _ _ _ hc hi, network_of_bit _ _ _ ha hi]
    by_cases hip : i < p
    · simp [hip, h i hip]
    · simp [hip]

/-! ## Evaluation on a node built for the network `a/p` -/

theorem eval_inet6 (bo : ByteOrder) (a c : List Nat) (p : Nat) (n : Bool)
    (ha : is_in6_addr a) (hc : is_in6_addr c) (h1 : 1 ≤ p) (h2 : p ≤ 128) :
    _eval bo { super := { comp := n }, address := network_of bo a p, prefix_ := (p : Int),
               is_valid := true }
        { saddr := some { sa_family := AF_INET6, sin6_addr := c } }
      = some (xor (decide (∀ i, i < p → in6_bit c i = in6_bit a i)) n) := by
  have hl1 : (network_of bo c p).take 16 = network_of bo c p :=
    List.take_of_length_le (by rw [(network_of_is_in6_addr bo c p hc).1])
  have hl2 : (network_of bo a p).take 16 = network_of bo a p :=
    List.take_of_length_le (by rw [(network_of_is_in6_addr bo a p ha).1])
  simp only [_eval, g_sockaddr_inet6_check, Bool.not_true, Bool.false_eq_true, if_false,
    beq_self_eq_true, if_true, get_network_address_eq bo c p hc h1 h2, Option.map_some',
    _in6_addr_compare, hl1, hl2, network_of_eq_iff bo a c p ha hc h2]

/-! ## Construction from a literal -/

theorem strchr_append (text rest : List Char) (c : Char) (h : c ∉ text) :
    strchr (text ++ c :: rest) c = some text.length := by
  induction text with
  | nil => simp [strchr]
  | cons x xs ih =>
    have hx : x ≠ c := fun e => h (by simp [e])
    have hxs : c ∉ xs := fun e => h (List.mem_cons_of_mem _ e)
    simp [strchr, hx, ih hxs]

theorem strchr_none (s : List Char) (c : Char) (h : c ∉ s) : strchr s c = none := by
  induction s with
  | nil => rfl
  | cons x xs ih =>
    have hx : x ≠ c := fun e => h (by simp [e])
    have hxs : c ∉ xs := fun e => h (List.mem_cons_of_mem _ e)
    simp [strchr, hx, ih hxs]

theorem atol_decimal (p : Nat) (h1 : 1 ≤ p) (h2 : p ≤ 128) :
    long_to_int (atol (Nat.toDigits 10 p)) = (p : Int) ∧ (Nat.toDigits 10 p).length ≤ 3 := by
  interval_cases p <;> decide

theorem get_network_address_some (bo : ByteOrder) (a dst : List Nat) (q : Int)
    (h1 : 1 ≤ q) (h2 : q ≤ 128) : ∃ net, _get_network_address bo a q dst = some net := by
  unfold _get_network_address _calculate_mask_by_prefix
  by_cases hq : q ≤ 64
  · have hc : (0 : Int) ≤ 64 - q ∧ (64 : Int) - q < 64 := by omega
    simp [hq, hc]
  · have hc : (0 : Int) ≤ 64 - (q - 64) ∧ (64 : Int) - (q - 64) < 64 := by omega
    simp [hq, hc]

/-- The copy made for a literal `text/digits` whose address part fits the
buffer and whose digits give a prefix in range. -/
theorem new_slash (bo : ByteOrder) (inet_pton : List Char → Option (List Nat))
    (text ds : List Char) (a : List Nat) (q : Int)
    (hacc : inet_pton text = some a) (hs : '/' ∉ text) (hne : text ≠ [])
    (hlen : text.length ≤ 45) (hds : ds.length ≤ 4)
    (hq : long_to_int (atol ds) = q) (h1 : 1 ≤ q) (h2 : q ≤ 128) :
    filter_netmask6_new bo inet_pton (text ++ '/' :: ds)
      = ( _get_network_address bo a q in6_zero).map fun network =>
          { super := { comp := false }, address := network, prefix_ := q, is_valid := true } := by
  have hpos : 0 < text.length := List.length_pos.mpr hne
  have hst : strchr (text ++ '/' :: ds) '/' = some text.length := strchr_append _ _ _ hs
  have hdrop : (text ++ '/' :: ds).drop (text.length + 1) = ds := by
    rw [show text ++ '/' :: ds = (text ++ ['/']) ++ ds by simp]
    exact List.drop_left' (by simp)
  have htake : (text ++ '/' :: ds).take text.length = text := List.take_left' rfl
  have hshort : ¬ (strlen (text ++ '/' :: ds) ≥ 46 + 5 ∨ some text.length = none) := by
    have hl : strlen (text ++ '/' :: ds) = text.length + (ds.length + 1) := by simp [strlen]
    rintro (h | h)
    · rw [hl] at h
      omega
    · cases h
  have hrange : q > 0 ∧ q < 129 := by omega
  have hfit1 : text.length ≤ 46 := by omega
  have hfit2 : text.length < 46 := by omega
  have hlen0 : strlen text > 0 := hpos
  unfold filter_netmask6_new
  simp only [hst, INET6_ADDRSTRLEN, hshort, if_false, Option.getD_some, hdrop, hq, hrange,
    and_self, if_true, strncpy, set_nul, htake, hfit1, hfit2, Option.some_bind,
    List.take_length, Option.map_some', hlen0, hacc]

theorem new_bare (bo : ByteOrder) (inet_pton : List Char → Option (List Nat))
    (cidr : List Char) (a : List Nat)
    (hacc : inet_pton cidr = some a) (hs : '/' ∉ cidr) (hne : cidr ≠ [])
    (hlen : cidr.length ≤ 45) :
    filter_netmask6_new bo inet_pton cidr
      = ( _get_network_address bo a 128 in6_zero).map fun network =>
          { super := { comp := false }, address := network, prefix_ := 128, is_valid := true } := by
  have hpos : strlen cidr > 0 := List.length_pos.mpr hne
  have hfit : strlen cidr + 1 ≤ 46 := by simp only [strlen]; omega
  unfold filter_netmask6_new
  simp only [strchr_none cidr '/' hs, or_true, if_true, strcpy, INET6_ADDRSTRLEN, hfit,
    Option.map_some', Option.some_bind, hpos, hacc]

/-! ## Little-endian hosts: the stored address is the masked address -/

theorem get_network_address_bits_little (a : List Nat) (p i : Nat) (ha : is_in6_addr a)
    (h1 : 1 ≤ p) (h2 : p ≤ 128) (hi : i < 128) :
    ∃ net, _get_network_address .G_LITTLE_ENDIAN a (p : Int) in6_zero = some net ∧
      in6_bit net i = (decide (i < p) && in6_bit a i) :=
  ⟨_, get_network_address_eq _ a p ha h1 h2, network_of_bit a p i ha hi⟩

theorem network_of_little_128 (a : List Nat) (ha : is_in6_addr a) :
    network_of .G_LITTLE_ENDIAN a 128 = a := by
  apply in6_addr_ext _ _ (network_of_is_in6_addr _ _ _ ha) ha
  intro i hi
  rw [network_of_bit a 128 i ha hi]
  simp [hi]

/-- On a little-endian host a bare literal is stored unchanged. -/
theorem new_bare_little (inet_pton : List Char → Option (List Nat)) (cidr : List Char)
    (a : List Nat) (hacc : inet_pton cidr = some a) (ha : is_in6_addr a) (hs : '/' ∉ cidr)
    (hne : cidr ≠ []) (hlen : cidr.length ≤ 45) :
    filter_netmask6_new .G_LITTLE_ENDIAN inet_pton cidr
      = some { super := { comp := false }, address := a, prefix_ := 128, is_valid := true } := by
  have h := get_network_address_eq .G_LITTLE_ENDIAN a 128 ha (by norm_num) (by norm_num)
  rw [network_of_little_128 a ha] at h
  rw [new_bare _ inet_pton cidr a hacc hs hne hlen]
  simp only [Nat.cast_ofNat] at h
  rw [h]
  rfl

/-- On either byte order the node built from a bare literal matches exactly
the parsed address. -/
theorem eval_bare (bo : ByteOrder) (inet_pton : List Char → Option (List Nat))
    (cidr : List Char) (a c : List Nat) (n : Bool)
    (hacc : inet_pton cidr = some a) (ha : is_in6_addr a) (hs : '/' ∉ cidr)
    (hne : cidr ≠ []) (hlen : cidr.length ≤ 45) (hc : is_in6_addr c) :
    ∃ s, filter_netmask6_new bo inet_pton cidr = some s ∧ s.is_valid = true ∧
      s.prefix_ = 128 ∧
      _eval bo { s with super := { comp := n } }
          { saddr := some { sa_family := AF_INET6, sin6_addr := c } }
        = some (xor (decide (c = a)) n) := by
  have h := get_network_address_eq bo a 128 ha (by norm_num) (by norm_num)
  simp only [Nat.cast_ofNat] at h
  have he := eval_inet6 bo a c 128 n ha hc (by norm_num) (by norm_num)
  simp only [Nat.cast_ofNat] at he
  have hiff : (∀ i, i < 128 → in6_bit c i = in6_bit a i) ↔ c = a :=
    ⟨fun hb => in6_addr_ext c a hc ha hb, fun e _ _ => by rw [e]⟩
  refine ⟨{ super := { comp := false }, address := network_of bo a 128, prefix_ := 128,
            is_valid := true }, ?_, rfl, rfl, ?_⟩
  · rw [new_bare bo inet_pton cidr a hacc hs hne hlen, h]
    rfl
  · rw [he]
    simp only [hiff]

/-- A bare literal that fits the buffer and is empty or rejected by
`inet_pton` gives an invalid node holding the loopback address. -/
theorem new_rejected_bare (bo : ByteOrder) (inet_pton : List Char → Option (List Nat))
    (cidr : List Char) (hs : '/' ∉ cidr) (hlen : cidr.length ≤ 45)
    (hrej : cidr = [] ∨ inet_pton cidr = none) :
    filter_netmask6_new bo inet_pton cidr
      = some { super := { comp := false }, address := in6addr_loopback, prefix_ := 128,
               is_valid := false } := by
  have hfit : strlen cidr + 1 ≤ 46 := by simp only [strlen]; omega
  have hno : (if strlen cidr > 0 then inet_pton cidr else none) = none := by
    rcases hrej with h | h
    · simp [h, strlen]
    · simp [h]
  unfold filter_netmask6_new
  simp only [strchr_none cidr '/' hs, or_true, if_true, strcpy, INET6_ADDRSTRLEN, hfit,
    Option.map_some', Option.some_bind, hno]

/-- A literal `text/rest` shorter than 51 characters whose address part fits
the buffer and is empty or rejected by `inet_pton` gives an invalid node
holding the loopback address. -/
theorem new_rejected_slash (bo : ByteOrder) (inet_pton : List Char → Option (List Nat))
    (text rest : List Char) (hs : '/' ∉ text) (hlen : text.length ≤ 45)
    (htot : (text ++ '/' :: rest).length < 51) (hrej : text = [] ∨ inet_pton text = none) :
    filter_netmask6_new bo inet_pton (text ++ '/' :: rest)
      = some { super := { comp := false }, address := in6addr_loopback,
               prefix_ := long_to_int (atol rest), is_valid := false } := by
  have hst : strchr (text ++ '/' :: rest) '/' = some text.length := strchr_append _ _ _ hs
  have hdrop : (text ++ '/' :: rest).drop (text.length + 1) = rest := by
    rw [show text ++ '/' :: rest = (text ++ ['/']) ++ rest by simp]
    exact List.drop_left' (by simp)
  have htake : (text ++ '/' :: rest).take text.length = text := List.take_left' rfl
  have hshort : ¬ (strlen (text ++ '/' :: rest) ≥ 46 + 5 ∨ some text.length = none) := by
    rintro (h | h)
    · simp only [strlen] at h
      omega
    · cases h
  have hfit1 : text.length ≤ 46 := by omega
  have hfit2 : text.length < 46 := by omega
  have hno : (if strlen text > 0 then inet_pton text else none) = none := by
    rcases hrej with h | h
    · simp [h, strlen]
    · simp [h]
  have hno0 : (if strlen ([] : List Char) > 0 then inet_pton [] else none) = none := by
    simp [strlen]
  unfold filter_netmask6_new
  simp only [hst, INET6_ADDRSTRLEN, hshort, if_false, Option.getD_some, hdrop]
  by_cases hr : long_to_int (atol rest) > 0 ∧ long_to_int (atol rest) < 129
  · simp only [hr, and_self, if_true, strncpy, set_nul, htake, hfit1, hfit2, Option.some_bind,
      List.take_length, Option.map_some', hno]
  · simp only [hr, if_false, Option.some_bind, hno0]

/-- A literal `text/rest` shorter than 51 characters whose prefix, as stored in
the `int` field, is outside `1..128` gives an invalid node holding the loopback
address; nothing is copied into the buffer. -/
theorem new_prefix_out_of_range (bo : ByteOrder) (inet_pton : List Char → Option (List Nat))
    (text rest : List Char) (hs : '/' ∉ text) (htot : (text ++ '/' :: rest).length < 51)
    (hr : ¬ (long_to_int (atol rest) > 0 ∧ long_to_int (atol rest) < 129)) :
    filter_netmask6_new bo inet_pton (text ++ '/' :: rest)
      = some { super := { comp := false }, address := in6addr_loopback,
               prefix_ := long_to_int (atol rest), is_valid := false } := by
  have hst : strchr (text ++ '/' :: rest) '/' = some text.length := strchr_append _ _ _ hs
  have hdrop : (text ++ '/' :: rest).drop (text.length + 1) = rest := by
    rw [show text ++ '/' :: rest = (text ++ ['/']) ++ rest by simp]
    exact List.drop_left' (by simp)
  have hshort : ¬ (strlen (text ++ '/' :: rest) ≥ 46 + 5 ∨ some text.length = none) := by
    rintro (h | h)
    · simp only [strlen] at h
      omega
    · cases h
  have hno0 : (if strlen ([] : List Char) > 0 then inet_pton [] else none) = none := by
    simp [strlen]
  unfold filter_netmask6_new
  simp only [hst, INET6_ADDRSTRLEN, hshort, if_false, Option.getD_some, hdrop, hr,
    Option.some_bind, hno0]

/-! ## The claims -/

/-- C1, on a big-endian host: the node built from `2001:db8::/32` stores the
octets `00 00 00 00 b8 0d 01 20 00 ..`, not `20 01 0d b8 00 ..`. Bit 2 of the
literal's address is set and lies below the prefix, bit 2 of the stored address
is clear; bit 32 of the stored address is set although 32 is not below the
prefix. -/
theorem new_big_endian_stores_swapped_octets :
    inet_pton6 "2001:db8::".toList = some [32, 1, 13, 184, 0, 0, 0, 0, 0, 0, 0, 0, 0, 0, 0, 0] ∧
    filter_netmask6_new .G_BIG_ENDIAN inet_pton6 "2001:db8::/32".toList
      = some { super := { comp := false },
               address := [0, 0, 0, 0, 184, 13, 1, 32, 0, 0, 0, 0, 0, 0, 0, 0],
               prefix_ := 32, is_valid := true } ∧
    in6_bit [32, 1, 13, 184, 0, 0, 0, 0, 0, 0, 0, 0, 0, 0, 0, 0] 2 = true ∧
    in6_bit [0, 0, 0, 0, 184, 13, 1, 32, 0, 0, 0, 0, 0, 0, 0, 0] 2 = false ∧
    in6_bit [0, 0, 0, 0, 184, 13, 1, 32, 0, 0, 0, 0, 0, 0, 0, 0] 32 = true := by
  decide

/-- C2: for a node built from the literal `text/p`, where `inet_pton` reads
`text` as the address `a` and `1 ≤ p ≤ 128`, with its negate flag set to `n`,
`_eval` on a message carrying the IPv6 address `c` returns
`(c agrees with a on the first p bits) XOR n`, on either byte order. -/
theorem eval_literal_first_bits (bo : ByteOrder) (inet_pton : List Char → Option (List Nat))
    (text : List Char) (a c : List Nat) (p : Nat) (n : Bool)
    (hacc : inet_pton text = some a) (ha : is_in6_addr a)
    (hs : '/' ∉ text) (hne : text ≠ []) (hlen : text.length ≤ 45)
    (h1 : 1 ≤ p) (h2 : p ≤ 128) (hc : is_in6_addr c) :
    ∃ s, filter_netmask6_new bo inet_pton (text ++ '/' :: Nat.toDigits 10 p) = some s ∧
      s.is_valid = true ∧
      _eval bo { s with super := { comp := n } }
          { saddr := some { sa_family := AF_INET6, sin6_addr := c } }
        = some (xor (decide (∀ i, i < p → in6_bit c i = in6_bit a i)) n) := by
  obtain ⟨hq, hd⟩ := atol_decimal p h1 h2
  refine ⟨{ super := { comp := false }, address := network_of bo a p, prefix_ := (p : Int),
            is_valid := true }, ?_, rfl, eval_inet6 bo a c p n ha hc h1 h2⟩
  rw [new_slash bo inet_pton text _ a (p : Int) hacc hs hne hlen (by omega) hq (by omega)
    (by omega), get_network_address_eq bo a p ha h1 h2]
  rfl

/-- Witness for C2 on `2001:db8::/32` and the candidate `2001:db8:1234::5`. -/
theorem eval_literal_first_bits_witness :
    inet_pton6 "2001:db8::".toList = some [32, 1, 13, 184, 0, 0, 0, 0, 0, 0, 0, 0, 0, 0, 0, 0] ∧
    (∃ s, filter_netmask6_new .G_LITTLE_ENDIAN inet_pton6
          ("2001:db8::".toList ++ '/' :: Nat.toDigits 10 32) = some s ∧
      s.is_valid = true ∧
      _eval .G_LITTLE_ENDIAN { s with super := { comp := false } }
          { saddr := some { sa_family := AF_INET6,
                            sin6_addr := [32, 1, 13, 184, 18, 52, 0, 0, 0, 0, 0, 0, 0, 0, 0, 5] } }
        = some (xor (decide (∀ i : Nat, i < 32 →
            in6_bit [32, 1, 13, 184, 18, 52, 0, 0, 0, 0, 0, 0, 0, 0, 0, 5] i
              = in6_bit [32, 1, 13, 184, 0, 0, 0, 0, 0, 0, 0, 0, 0, 0, 0, 0] i)) false)) :=
  ⟨by decide,
   eval_literal_first_bits .G_LITTLE_ENDIAN inet_pton6 "2001:db8::".toList
     [32, 1, 13, 184, 0, 0, 0, 0, 0, 0, 0, 0, 0, 0, 0, 0]
     [32, 1, 13, 184, 18, 52, 0, 0, 0, 0, 0, 0, 0, 0, 0, 5] 32 false
     (by decide) (by decide) (by decide) (by decide) (by decide) (by decide) (by decide)
     (by decide)⟩

/-- The scenarios of C2 run on both byte orders: `2001:db8::/32` matches
`2001:db8:1234::5` and does not match `2001:db9::1`. -/
theorem eval_2001_db8_32_scenarios (bo : ByteOrder) :
    (filter_netmask6_new bo inet_pton6 "2001:db8::/32".toList).bind (fun s =>
        _eval bo s { saddr := some { sa_family := AF_INET6,
                                     sin6_addr := [32, 1, 13, 184, 18, 52, 0, 0, 0, 0, 0, 0, 0, 0, 0, 5] } })
      = some true ∧
    (filter_netmask6_new bo inet_pton6 "2001:db8::/32".toList).bind (fun s =>
        _eval bo s { saddr := some { sa_family := AF_INET6,
                                     sin6_addr := [32, 1, 13, 185, 0, 0, 0, 0, 0, 0, 0, 0, 0, 0, 0, 1] } })
      = some false := by
  cases bo <;> decide

/-- C3: a node whose `is_valid` is false evaluates to its negate flag `n`, for
every message (any family, any octets, or no address), every stored address and
prefix, on either byte order. -/
theorem eval_invalid (bo : ByteOrder) (address : List Nat) (q : Int) (n : Bool)
    (msg : LogMessage) :
    _eval bo { super := { comp := n }, address := address, prefix_ := q, is_valid := false } msg
      = some n := by
  simp [_eval]

/-- C4: for a literal `text/p` where `inet_pton` accepts `text` (at most 45
characters, as every IPv6 text is) and `p` is written in decimal with
`1 ≤ p ≤ 128`, the constructor returns a node with `is_valid = true` and
`prefix = p`. -/
theorem new_literal_valid (bo : ByteOrder) (inet_pton : List Char → Option (List Nat))
    (text : List Char) (a : List Nat) (p : Nat)
    (hacc : inet_pton text = some a) (hs : '/' ∉ text) (hne : text ≠ [])
    (hlen : text.length ≤ 45) (h1 : 1 ≤ p) (h2 : p ≤ 128) :
    ∃ s, filter_netmask6_new bo inet_pton (text ++ '/' :: Nat.toDigits 10 p) = some s ∧
      s.is_valid = true ∧ s.prefix_ = (p : Int) := by
  obtain ⟨hq, hd⟩ := atol_decimal p h1 h2
  obtain ⟨net, hnet⟩ := get_network_address_some bo a in6_zero (p : Int) (by omega) (by omega)
  refine ⟨{ super := { comp := false }, address := net, prefix_ := (p : Int),
            is_valid := true }, ?_, rfl, rfl⟩
  rw [new_slash bo inet_pton text _ a (p : Int) hacc hs hne hlen (by omega) hq (by omega)
    (by omega), hnet]
  rfl

/-- Witness for C4 on the literal `fe80::1/64`. -/
theorem new_literal_valid_witness :
    inet_pton6 "fe80::1".toList = some [254, 128, 0, 0, 0, 0, 0, 0, 0, 0, 0, 0, 0, 0, 0, 1] ∧
    "fe80::1".toList ++ '/' :: Nat.toDigits 10 64 = "fe80::1/64".toList ∧
    (∃ s, filter_netmask6_new .G_LITTLE_ENDIAN inet_pton6
          ("fe80::1".toList ++ '/' :: Nat.toDigits 10 64) = some s ∧
      s.is_valid = true ∧ s.prefix_ = ((64 : Nat) : Int)) :=
  ⟨by decide, by decide,
   new_literal_valid .G_LITTLE_ENDIAN inet_pton6 "fe80::1".toList
     [254, 128, 0, 0, 0, 0, 0, 0, 0, 0, 0, 0, 0, 0, 0, 1] 64
     (by decide) (by decide) (by decide) (by decide) (by decide) (by decide)⟩

/-- C5, at the literal `::1/4294967297`: the text after the slash is the
decimal text of `2 ^ 32 + 1 > 128`; `atol` returns that value, the assignment
to the `int` field `prefix` keeps `1`, the range test passes and the node is
valid with prefix 1. -/
theorem new_prefix_4294967297_is_valid :
    atol "4294967297".toList = 4294967297 ∧
    long_to_int 4294967297 = 1 ∧
    filter_netmask6_new .G_LITTLE_ENDIAN inet_pton6 "::1/4294967297".toList
      = some { super := { comp := false },
               address := [0, 0, 0, 0, 0, 0, 0, 0, 0, 0, 0, 0, 0, 0, 0, 0],
               prefix_ := 1, is_valid := true } := by
  decide

/-- C6, at a 47-character literal without a slash that is no IPv6 address:
`strcpy` needs 48 octets of the 46-octet buffer `address`, so the call has no
defined result. -/
theorem new_long_rejected_text_overruns :
    strchr "not-an-address-but-a-long-host-name.example.org".toList '/' = none ∧
    strlen "not-an-address-but-a-long-host-name.example.org".toList = 47 ∧
    inet_pton6 "not-an-address-but-a-long-host-name.example.org".toList = none ∧
    strcpy INET6_ADDRSTRLEN "not-an-address-but-a-long-host-name.example.org".toList = none ∧
    filter_netmask6_new .G_LITTLE_ENDIAN inet_pton6
      "not-an-address-but-a-long-host-name.example.org".toList = none := by
  decide

/-- C7, on a big-endian host: the node built from the bare literal
`1:2:3:4:5:6:7:8` is valid with prefix 128, but its stored address has the last
eight octets of the parsed address in reverse order. -/
theorem new_bare_big_endian_reverses_high_octets :
    inet_pton6 "1:2:3:4:5:6:7:8".toList = some [0, 1, 0, 2, 0, 3, 0, 4, 0, 5, 0, 6, 0, 7, 0, 8] ∧
    filter_netmask6_new .G_BIG_ENDIAN inet_pton6 "1:2:3:4:5:6:7:8".toList
      = some { super := { comp := false },
               address := [0, 1, 0, 2, 0, 3, 0, 4, 8, 0, 7, 0, 6, 0, 5, 0],
               prefix_ := 128, is_valid := true } := by
  decide

/-- C8: on every node and either byte order, `_eval` on a message without a
socket address, and on a message whose socket address is of the unix-domain
family (whatever its octets), returns what it returns on a message carrying the
IPv6 address `::1`. -/
theorem eval_no_address_as_loopback (bo : ByteOrder) (s : FilterNetmask6) (octets : List Nat) :
    _eval bo s { saddr := none }
      = _eval bo s { saddr := some { sa_family := AF_INET6, sin6_addr := in6addr_loopback } } ∧
    _eval bo s { saddr := some { sa_family := AF_UNIX, sin6_addr := octets } }
      = _eval bo s { saddr := some { sa_family := AF_INET6, sin6_addr := in6addr_loopback } } := by
  constructor <;> simp [_eval, g_sockaddr_inet6_check, AF_UNIX, AF_INET6]

/-- The scenario of C8: the node built from `fe80::/64`, on a message without a
socket address, does not match. -/
theorem eval_fe80_64_no_address (bo : ByteOrder) :
    (filter_netmask6_new bo inet_pton6 "fe80::/64".toList).bind (fun s =>
        _eval bo s { saddr := none }) = some false := by
  cases bo <;> decide

/-- C9: on every node (valid or not) and either byte order, `_eval` on a message
whose socket address is present and is neither IPv6 nor unix-domain returns the
negate flag, whatever the octets of the address. -/
theorem eval_other_family (bo : ByteOrder) (s : FilterNetmask6) (sa : GSockAddr)
    (h6 : sa.sa_family ≠ AF_INET6) (hu : sa.sa_family ≠ AF_UNIX) :
    _eval bo s { saddr := some sa } = some s.super.comp := by
  simp [_eval, g_sockaddr_inet6_check, h6, hu]

/-- Witness for C9: an IPv4 socket address on the valid node `::/1`. -/
theorem eval_other_family_witness :
    AF_INET ≠ AF_INET6 ∧ AF_INET ≠ AF_UNIX ∧
    _eval .G_LITTLE_ENDIAN
        { super := { comp := true }, address := in6_zero, prefix_ := 1, is_valid := true }
        { saddr := some { sa_family := AF_INET, sin6_addr := [192, 0, 2, 1] } }
      = some true :=
  ⟨by decide, by decide,
   eval_other_family .G_LITTLE_ENDIAN
     { super := { comp := true }, address := in6_zero, prefix_ := 1, is_valid := true }
     { sa_family := AF_INET, sin6_addr := [192, 0, 2, 1] } (by decide) (by decide)⟩

/-- C10, at the address `2001:db8:1234::5` and prefix 48: a little-endian host
writes `20 01 0d b8 12 34 00 00 ..`, a big-endian host writes
`00 00 34 12 b8 0d 01 20 ..`. -/
theorem get_network_address_byte_orders_differ :
    _get_network_address .G_LITTLE_ENDIAN
        [32, 1, 13, 184, 18, 52, 0, 0, 0, 0, 0, 0, 0, 0, 0, 5] 48 in6_zero
      = some [32, 1, 13, 184, 18, 52, 0, 0, 0, 0, 0, 0, 0, 0, 0, 0] ∧
    _get_network_address .G_BIG_ENDIAN
        [32, 1, 13, 184, 18, 52, 0, 0, 0, 0, 0, 0, 0, 0, 0, 5] 48 in6_zero
      = some [0, 0, 52, 18, 184, 13, 1, 32, 0, 0, 0, 0, 0, 0, 0, 0] := by
  decide


/-! ## What the constructor can return -/

theorem new_eq_copy_bind (bo : ByteOrder) (inet_pton : List Char → Option (List Nat))
    (cidr : List Char) :
    filter_netmask6_new bo inet_pton cidr
      = (address_copy cidr).bind fun (address, prefix_) =>
          match (if strlen address > 0 then inet_pton address else none) with
          | some packet_addr =>
            ( _get_network_address bo packet_addr prefix_ in6_zero).map fun network =>
              { super := { comp := false }, address := network, prefix_ := prefix_,
                is_valid := true }
          | none =>
            some { super := { comp := false }, address := in6addr_loopback, prefix_ := prefix_,
                   is_valid := false } :=
  rfl

theorem address_copy_range (cidr address : List Char) (q : Int)
    (h : address_copy cidr = some (address, q)) (hne : address ≠ []) : 1 ≤ q ∧ q ≤ 128 := by
  unfold address_copy at h
  simp only at h
  split at h
  · simp only [strcpy] at h
    split at h
    · simp only [Option.map_some', Option.some.injEq, Prod.mk.injEq] at h
      omega
    · simp at h
  · split at h
    · rename_i hr
      cases hc : (strncpy INET6_ADDRSTRLEN cidr ((strchr cidr '/').getD 0)).bind fun address =>
          set_nul INET6_ADDRSTRLEN address ((strchr cidr '/').getD 0) with
      | none => rw [hc] at h; simp at h
      | some x =>
        rw [hc] at h
        simp only [Option.map_some', Option.some.injEq, Prod.mk.injEq] at h
        omega
    · simp only [Option.some.injEq, Prod.mk.injEq] at h
      exact absurd h.1.symm hne

theorem mask_argument_range (q : Int) (h1 : 1 ≤ q) (h2 : q ≤ 128) :
    1 ≤ mask_argument q ∧ mask_argument q ≤ 64 := by
  unfold mask_argument
  split <;> omega

theorem get_network_address_calls (bo : ByteOrder) (a dst : List Nat) (q : Int) :
    ( _get_network_address bo a q dst).isSome
      = ( _calculate_mask_by_prefix (mask_argument q)).isSome := by
  unfold _get_network_address mask_argument
  split <;> simp

/-- Every node the constructor returns: a valid one holds the masked address
of a text that `inet_pton` accepted, with a prefix in `1..128`; an invalid one
holds the loopback address. -/
theorem new_cases (bo : ByteOrder) (inet_pton : List Char → Option (List Nat))
    (cidr : List Char) (s : FilterNetmask6)
    (h : filter_netmask6_new bo inet_pton cidr = some s) :
    s.super.comp = false ∧
    (s.is_valid = true → 1 ≤ s.prefix_ ∧ s.prefix_ ≤ 128 ∧
      ∃ text a, text ≠ [] ∧ inet_pton text = some a ∧
        _get_network_address bo a s.prefix_ in6_zero = some s.address) ∧
    (s.is_valid = false → s.address = in6addr_loopback) := by
  rw [new_eq_copy_bind] at h
  cases hc : address_copy cidr with
  | none => rw [hc] at h; simp at h
  | some x =>
    obtain ⟨address, q⟩ := x
    rw [hc] at h
    simp only [Option.some_bind] at h
    by_cases hlen : strlen address > 0
    · have hne : address ≠ [] := List.length_pos.mp hlen
      rw [if_pos hlen] at h
      cases hp : inet_pton address with
      | none =>
        rw [hp] at h
        simp only [Option.some.injEq] at h
        subst h
        simp
      | some packet =>
        rw [hp] at h
        simp only at h
        cases hn : _get_network_address bo packet q in6_zero with
        | none => rw [hn] at h; simp at h
        | some net =>
          rw [hn] at h
          simp only [Option.map_some', Option.some.injEq] at h
          subst h
          obtain ⟨h1, h2⟩ := address_copy_range cidr address q hc hne
          exact ⟨rfl, fun _ => ⟨h1, h2, address, packet, hne, hp, hn⟩, fun hv => by simp at hv⟩
    · rw [if_neg hlen] at h
      simp only [Option.some.injEq] at h
      subst h
      simp

/-- The constructor has no defined result only when the copy into `address`
overruns the buffer. -/
theorem new_none_iff (bo : ByteOrder) (inet_pton : List Char → Option (List Nat))
    (cidr : List Char) :
    filter_netmask6_new bo inet_pton cidr = none ↔ address_copy cidr = none := by
  rw [new_eq_copy_bind]
  cases hc : address_copy cidr with
  | none => simp
  | some x =>
    obtain ⟨address, q⟩ := x
    simp only [Option.some_bind, reduceCtorEq, iff_false]
    by_cases hlen : strlen address > 0
    · have hne : address ≠ [] := List.length_pos.mp hlen
      rw [if_pos hlen]
      cases hp : inet_pton address with
      | none => simp
      | some packet =>
        obtain ⟨h1, h2⟩ := address_copy_range cidr address q hc hne
        obtain ⟨net, hn⟩ := get_network_address_some bo packet in6_zero q h1 h2
        simp [hn]
    · rw [if_neg hlen]
      simp


/-! ## Masking without assumptions on the address read -/

theorem store_le_reverse_testBit (x k j : Nat) (hk : k < 8) (hj : j < 8) :
    (((store_le 8 x).reverse).getD k 0).testBit j = x.testBit (8 * (7 - k) + j) := by
  have hlen : (store_le 8 x).length = 8 := store_le_length _ _
  rw [List.getD_eq_getElem _ _ (by simp [hlen]; exact hk), List.getElem_reverse,
    ← List.getD_eq_getElem _ 0, hlen, store_le_getD _ _ _ (by omega)]
  have e : (256 : Nat) ^ (8 - 1 - k) = 2 ^ (8 * (7 - k)) := by
    rw [show (256 : Nat) = 2 ^ 8 by norm_num, ← pow_mul]
  have e2 : (256 : Nat) = 2 ^ 8 := by norm_num
  rw [e, ← Nat.shiftRight_eq_div_pow, e2, Nat.testBit_mod_two_pow, Nat.testBit_shiftRight]
  simp [hj]

theorem replicate_zero_getD (n k : Nat) : (List.replicate n 0).getD k 0 = 0 := by
  rw [List.getD_eq_getElem?_getD, List.getElem?_replicate]
  split <;> rfl

/-- With a prefix of at most 64 the call writes eight octets that do not
depend on the destination, and keeps the rest of the destination. -/
theorem get_network_address_low (bo : ByteOrder) (a dst : List Nat) (p : Nat)
    (h1 : 1 ≤ p) (h2 : p ≤ 64) :
    _get_network_address bo a (p : Int) dst
      = some (store64 bo (_mask bo (load64 bo (a.take 8)) (word_mask p)) ++ dst.drop 8) := by
  have hp' : (p : Int) ≤ 64 := by omega
  unfold _get_network_address
  rw [if_pos hp', calculate_mask_eq p h1 h2]
  simp only [Option.map_some', memcpy]
  rw [List.take_left' (store64_length _ _)]

theorem get_network_address_high (bo : ByteOrder) (a dst : List Nat) (p : Nat)
    (h1 : 64 < p) (h2 : p ≤ 128) :
    _get_network_address bo a (p : Int) dst
      = some (store64 bo (load64 bo (a.take 8))
          ++ store64 bo (_mask bo (load64 bo ((a.drop 8).take 8)) (word_mask (p - 64)))
          ++ dst.drop 16) := by
  have hp' : ¬ (p : Int) ≤ 64 := by omega
  have hc : (p : Int) - 64 = ((p - 64 : Nat) : Int) := by omega
  unfold _get_network_address
  rw [if_neg hp', hc, calculate_mask_eq (p - 64) (by omega) (by omega)]
  simp only [Option.map_some', memcpy]
  rw [List.take_of_length_le (by simp [store64_length])]

/-- On a little-endian host every bit at or beyond the prefix is clear in what
the call leaves in a zero-filled destination, whatever the octets read. -/
theorem get_network_address_little_high_bits (a net : List Nat) (p i : Nat)
    (h1 : 1 ≤ p) (h2 : p ≤ 128) (hpi : p ≤ i) (hi : i < 128)
    (h : _get_network_address .G_LITTLE_ENDIAN a (p : Int) in6_zero = some net) :
    in6_bit net i = false := by
  unfold in6_bit
  by_cases hp : p ≤ 64
  · rw [get_network_address_low _ a in6_zero p h1 hp] at h
    simp only [Option.some.injEq, store64, _mask] at h
    rw [store_le_swap] at h
    subst h
    by_cases h64 : i < 64
    · rw [List.getD_append _ _ _ _ (by simp [store_le_length]; omega),
        store_le_reverse_testBit _ _ _ (by omega) (by omega), Nat.testBit_and,
        word_mask_testBit]
      have : decide (64 - p ≤ 8 * (7 - i / 8) + (7 - i % 8) ∧
          8 * (7 - i / 8) + (7 - i % 8) < 64) = false := by
        simp only [decide_eq_false_iff_not]; omega
      rw [this, Bool.and_false]
    · rw [List.getD_append_right _ _ _ _ (by simp [store_le_length]; omega)]
      have hz : in6_zero.drop 8 = List.replicate 8 0 := by decide
      rw [hz, replicate_zero_getD]
      simp
  · rw [get_network_address_high _ a in6_zero p (by omega) h2] at h
    simp only [Option.some.injEq, store64, _mask] at h
    rw [store_le_swap] at h
    subst h
    have hz : in6_zero.drop 16 = [] := by decide
    rw [hz, List.append_nil,
      List.getD_append_right _ _ _ _ (by simp [store_le_length]; omega), store_le_length,
      store_le_reverse_testBit _ _ _ (by omega) (by omega), Nat.testBit_and,
      word_mask_testBit]
    have : decide (64 - (p - 64) ≤ 8 * (7 - (i / 8 - 8)) + (7 - i % 8) ∧
        8 * (7 - (i / 8 - 8)) + (7 - i % 8) < 64) = false := by
      simp only [decide_eq_false_iff_not]; omega
    rw [this, Bool.and_false]


/-! ## Little-endian hosts: nested and repeated masking -/

theorem network_of_little_nested (a : List Nat) (p q : Nat) (ha : is_in6_addr a) (hq : q ≤ p) :
    network_of .G_LITTLE_ENDIAN (network_of .G_LITTLE_ENDIAN a p) q
      = network_of .G_LITTLE_ENDIAN a q := by
  have hn := network_of_is_in6_addr .G_LITTLE_ENDIAN a p ha
  apply in6_addr_ext _ _ (network_of_is_in6_addr _ _ _ hn) (network_of_is_in6_addr _ _ _ ha)
  intro i hi
  rw [network_of_bit _ q i hn hi, network_of_bit a p i ha hi, network_of_bit a q i ha hi]
  by_cases hiq : i < q
  · have hip : i < p := by omega
    simp [hiq, hip]
  · simp [hiq]

/-- On a little-endian host masking with `p` and then with `q ≤ p` is masking
with `q`; with `q = p`, masking twice is masking once. -/
theorem get_network_address_little_nested (a : List Nat) (p q : Nat) (ha : is_in6_addr a)
    (h1 : 1 ≤ q) (hq : q ≤ p) (h2 : p ≤ 128) :
    ∃ n1 n2, _get_network_address .G_LITTLE_ENDIAN a (p : Int) in6_zero = some n1 ∧
      _get_network_address .G_LITTLE_ENDIAN n1 (q : Int) in6_zero = some n2 ∧
      _get_network_address .G_LITTLE_ENDIAN a (q : Int) in6_zero = some n2 := by
  refine ⟨_, _, get_network_address_eq _ a p ha (by omega) h2, ?_,
    get_network_address_eq _ a q ha h1 (by omega)⟩
  rw [get_network_address_eq _ _ q (network_of_is_in6_addr _ a p ha) h1 (by omega),
    network_of_little_nested a p q ha hq]

/-- On a little-endian host an address whose bits from `p` on are clear is
returned unchanged. -/
theorem get_network_address_little_aligned (a : List Nat) (p : Nat) (ha : is_in6_addr a)
    (h1 : 1 ≤ p) (h2 : p ≤ 128) (hz : ∀ i, p ≤ i → i < 128 → in6_bit a i = false) :
    _get_network_address .G_LITTLE_ENDIAN a (p : Int) in6_zero = some a := by
  rw [get_network_address_eq _ a p ha h1 h2]
  congr 1
  apply in6_addr_ext _ _ (network_of_is_in6_addr _ _ _ ha) ha
  intro i hi
  rw [network_of_bit a p i ha hi]
  by_cases hip : i < p
  · simp [hip]
  · simp [hip, hz i (by omega) hi]

/-! ## Nodes built from `text/p` -/

theorem new_slash_eq (bo : ByteOrder) (inet_pton : List Char → Option (List Nat))
    (text : List Char) (a : List Nat) (p : Nat)
    (hacc : inet_pton text = some a) (ha : is_in6_addr a)
    (hs : '/' ∉ text) (hne : text ≠ []) (hlen : text.length ≤ 45)
    (h1 : 1 ≤ p) (h2 : p ≤ 128) :
    filter_netmask6_new bo inet_pton (text ++ '/' :: Nat.toDigits 10 p)
      = some { super := { comp := false }, address := network_of bo a p, prefix_ := (p : Int),
               is_valid := true } := by
  obtain ⟨hq, hd⟩ := atol_decimal p h1 h2
  rw [new_slash bo inet_pton text _ a (p : Int) hacc hs hne hlen (by omega) hq (by omega)
    (by omega), get_network_address_eq bo a p ha h1 h2]
  rfl

/-- On either byte order, a candidate that matches the node built from
`text/p` matches the node built from `text/q` for every `q ≤ p`. -/
theorem eval_nested (bo : ByteOrder) (inet_pton : List Char → Option (List Nat))
    (text : List Char) (a c : List Nat) (p q : Nat)
    (hacc : inet_pton text = some a) (ha : is_in6_addr a)
    (hs : '/' ∉ text) (hne : text ≠ []) (hlen : text.length ≤ 45)
    (h1 : 1 ≤ q) (hq : q ≤ p) (h2 : p ≤ 128) (hc : is_in6_addr c) :
    ∃ sp sq, filter_netmask6_new bo inet_pton (text ++ '/' :: Nat.toDigits 10 p) = some sp ∧
      filter_netmask6_new bo inet_pton (text ++ '/' :: Nat.toDigits 10 q) = some sq ∧
      ( _eval bo sp { saddr := some { sa_family := AF_INET6, sin6_addr := c } } = some true →
        _eval bo sq { saddr := some { sa_family := AF_INET6, sin6_addr := c } } = some true) := by
  refine ⟨_, _, new_slash_eq bo inet_pton text a p hacc ha hs hne hlen (by omega) h2,
    new_slash_eq bo inet_pton text a q hacc ha hs hne hlen h1 (by omega), ?_⟩
  rw [eval_inet6 bo a c p false ha hc (by omega) h2,
    eval_inet6 bo a c q false ha hc h1 (by omega)]
  simp only [Bool.xor_false, Option.some.injEq, decide_eq_true_eq]
  intro h i hi
  exact h i (by omega)


/-! ## The claims, continued -/

/-- C11, on a big-endian host: masking `2001:db8:1234:5678::9` with prefix 40
leaves `00 00 00 12 b8 0d 01 20 00 ..`, and masking that again with prefix 40
leaves `00 00 00 b8 12 00 00 00 00 ..`; the aligned address `fe80::` with prefix
64 comes back as `00 00 00 00 00 00 80 fe 00 ..`. -/
theorem get_network_address_big_endian_twice :
    _get_network_address .G_BIG_ENDIAN
        [32, 1, 13, 184, 18, 52, 86, 120, 0, 0, 0, 0, 0, 0, 0, 9] 40 in6_zero
      = some [0, 0, 0, 18, 184, 13, 1, 32, 0, 0, 0, 0, 0, 0, 0, 0] ∧
    _get_network_address .G_BIG_ENDIAN
        [0, 0, 0, 18, 184, 13, 1, 32, 0, 0, 0, 0, 0, 0, 0, 0] 40 in6_zero
      = some [0, 0, 0, 184, 18, 0, 0, 0, 0, 0, 0, 0, 0, 0, 0, 0] ∧
    _get_network_address .G_BIG_ENDIAN
        [254, 128, 0, 0, 0, 0, 0, 0, 0, 0, 0, 0, 0, 0, 0, 0] 64 in6_zero
      = some [0, 0, 0, 0, 0, 0, 128, 254, 0, 0, 0, 0, 0, 0, 0, 0] := by
  decide

/-- C12: whenever the constructor returns a node with `is_valid = true`, the
stored prefix is at least 1 and at most 128, for every literal, every
`inet_pton` and either byte order. -/
theorem new_valid_prefix_range (bo : ByteOrder) (inet_pton : List Char → Option (List Nat))
    (cidr : List Char) (s : FilterNetmask6)
    (h : filter_netmask6_new bo inet_pton cidr = some s) (hv : s.is_valid = true) :
    1 ≤ s.prefix_ ∧ s.prefix_ ≤ 128 := by
  obtain ⟨h1, h2, _⟩ := (new_cases bo inet_pton cidr s h).2.1 hv
  exact ⟨h1, h2⟩

/-- Witness for C12 on the literal `2001:db8:ffff::/33`. -/
theorem new_valid_prefix_range_witness :
    filter_netmask6_new .G_LITTLE_ENDIAN inet_pton6 "2001:db8:ffff::/33".toList
      = some { super := { comp := false },
               address := [32, 1, 13, 184, 128, 0, 0, 0, 0, 0, 0, 0, 0, 0, 0, 0],
               prefix_ := 33, is_valid := true } ∧
    (1 : Int) ≤ 33 ∧ (33 : Int) ≤ 128 :=
  ⟨by decide,
   new_valid_prefix_range .G_LITTLE_ENDIAN inet_pton6 "2001:db8:ffff::/33".toList
     { super := { comp := false },
       address := [32, 1, 13, 184, 128, 0, 0, 0, 0, 0, 0, 0, 0, 0, 0, 0],
       prefix_ := 33, is_valid := true } (by decide) rfl⟩

/-- C13 fails at the literal `garbage/64`: the node returned is invalid with
prefix 64 and holds `::1`, whose bit 127 is set although `64 ≤ 127`. -/
theorem new_garbage_64_keeps_loopback_bit :
    filter_netmask6_new .G_LITTLE_ENDIAN inet_pton6 "garbage/64".toList
      = some { super := { comp := false }, address := in6addr_loopback, prefix_ := 64,
               is_valid := false } ∧
    (64 : Int) ≤ ((127 : Nat) : Int) ∧ 127 < 128 ∧ in6_bit in6addr_loopback 127 = true := by
  decide

/-- C13 as amended: on a little-endian host, for every literal and every
`inet_pton`, a returned node with `is_valid = true` has every bit of its stored
address at a position from its prefix on (below 128) clear; a returned node
with `is_valid = false` stores the loopback address `::1`. -/
theorem new_little_valid_host_bits_clear (inet_pton : List Char → Option (List Nat))
    (cidr : List Char) (s : FilterNetmask6)
    (h : filter_netmask6_new .G_LITTLE_ENDIAN inet_pton cidr = some s) :
    (s.is_valid = true →
      ∀ i : Nat, s.prefix_ ≤ (i : Int) → i < 128 → in6_bit s.address i = false) ∧
    (s.is_valid = false → s.address = in6addr_loopback) := by
  obtain ⟨_, hvalid, hinvalid⟩ := new_cases _ inet_pton cidr s h
  refine ⟨fun hv i hpi hi => ?_, hinvalid⟩
  obtain ⟨h1, h2, text, a, _, _, hnet⟩ := hvalid hv
  have hp : s.prefix_ = ((s.prefix_.toNat : Nat) : Int) := by omega
  rw [hp] at hnet
  exact get_network_address_little_high_bits a s.address s.prefix_.toNat i (by omega) (by omega)
    (by omega) hi hnet

/-- Witness for the amended C13 on the literal `2001:db8:ffff::/33`. -/
theorem new_little_valid_host_bits_clear_witness :
    filter_netmask6_new .G_LITTLE_ENDIAN inet_pton6 "2001:db8:ffff::/33".toList
      = some { super := { comp := false },
               address := [32, 1, 13, 184, 128, 0, 0, 0, 0, 0, 0, 0, 0, 0, 0, 0],
               prefix_ := 33, is_valid := true } ∧
    in6_bit [32, 1, 13, 184, 128, 0, 0, 0, 0, 0, 0, 0, 0, 0, 0, 0] 33 = false :=
  ⟨by decide,
   (new_little_valid_host_bits_clear inet_pton6 "2001:db8:ffff::/33".toList
     { super := { comp := false },
       address := [32, 1, 13, 184, 128, 0, 0, 0, 0, 0, 0, 0, 0, 0, 0, 0],
       prefix_ := 33, is_valid := true } (by decide)).1 rfl 33 (by decide) (by decide)⟩


/-- C14: for every node, every message and either byte order, `_eval` with the
negate flag set is the negation of `_eval` with the flag clear; both are
defined whenever a valid node has its prefix in `1..128` (as every node from
the constructor has); and with the flag clear the result on an IPv6 candidate
is the comparison of the masked candidate with the stored address itself. -/
theorem eval_negate (bo : ByteOrder) (s : FilterNetmask6) (msg : LogMessage) :
    _eval bo { s with super := { comp := true } } msg
      = ( _eval bo { s with super := { comp := false } } msg).map (fun r => !r) ∧
    ((s.is_valid = true → 1 ≤ s.prefix_ ∧ s.prefix_ ≤ 128) →
      ∃ r, _eval bo { s with super := { comp := false } } msg = some r ∧
        _eval bo { s with super := { comp := true } } msg = some (!r)) ∧
    (∀ c, s.is_valid = true →
      _eval bo { s with super := { comp := false } }
          { saddr := some { sa_family := AF_INET6, sin6_addr := c } }
        = ( _get_network_address bo c s.prefix_ in6_zero).map fun network_address =>
            _in6_addr_compare network_address s.address) := by
  have hrel : _eval bo { s with super := { comp := true } } msg
      = ( _eval bo { s with super := { comp := false } } msg).map (fun r => !r) := by
    unfold _eval
    cases hv : s.is_valid
    · simp
    · cases hm : msg.saddr with
      | none => simp [Option.map_map, Function.comp_def]
      | some sa =>
        by_cases h6 : g_sockaddr_inet6_check sa = true
        · simp [h6, Option.map_map, Function.comp_def]
        · by_cases hu : sa.sa_family = AF_UNIX
          · simp [h6, hu, Option.map_map, Function.comp_def]
          · simp [h6, hu]
  refine ⟨hrel, ?_, ?_⟩
  · intro hp
    have hdef : ∃ r, _eval bo { s with super := { comp := false } } msg = some r := by
      unfold _eval
      cases hv : s.is_valid
      · simp
      · obtain ⟨h1, h2⟩ := hp hv
        have hsome : ∀ c, ∃ net, _get_network_address bo c s.prefix_ in6_zero = some net :=
          fun c => get_network_address_some bo c in6_zero s.prefix_ h1 h2
        cases hm : msg.saddr with
        | none =>
          obtain ⟨net, hn⟩ := hsome in6addr_loopback
          simp [hn]
        | some sa =>
          by_cases h6 : g_sockaddr_inet6_check sa = true
          · obtain ⟨net, hn⟩ := hsome sa.sin6_addr
            simp [h6, hn]
          · by_cases hu : sa.sa_family = AF_UNIX
            · obtain ⟨net, hn⟩ := hsome in6addr_loopback
              simp [h6, hu, hn]
            · simp [h6, hu]
    obtain ⟨r, hr⟩ := hdef
    exact ⟨r, hr, by rw [hrel, hr]; rfl⟩
  · intro c hv
    simp [_eval, hv, g_sockaddr_inet6_check]

/-- Witness for C14 on the node of `2001:db8::/32` and the candidate
`2001:db8:1234::5`: `true` with the flag clear, `false` with it set. -/
theorem eval_negate_witness :
    _eval .G_LITTLE_ENDIAN
        { super := { comp := false },
          address := [32, 1, 13, 184, 0, 0, 0, 0, 0, 0, 0, 0, 0, 0, 0, 0],
          prefix_ := 32, is_valid := true }
        { saddr := some { sa_family := AF_INET6,
                          sin6_addr := [32, 1, 13, 184, 18, 52, 0, 0, 0, 0, 0, 0, 0, 0, 0, 5] } }
      = some true ∧
    _eval .G_LITTLE_ENDIAN
        { super := { comp := true },
          address := [32, 1, 13, 184, 0, 0, 0, 0, 0, 0, 0, 0, 0, 0, 0, 0],
          prefix_ := 32, is_valid := true }
        { saddr := some { sa_family := AF_INET6,
                          sin6_addr := [32, 1, 13, 184, 18, 52, 0, 0, 0, 0, 0, 0, 0, 0, 0, 5] } }
      = (some true).map (fun r => !r) :=
  ⟨by decide,
   (by decide : _eval .G_LITTLE_ENDIAN
        { super := { comp := false },
          address := [32, 1, 13, 184, 0, 0, 0, 0, 0, 0, 0, 0, 0, 0, 0, 0],
          prefix_ := 32, is_valid := true }
        { saddr := some { sa_family := AF_INET6,
                          sin6_addr := [32, 1, 13, 184, 18, 52, 0, 0, 0, 0, 0, 0, 0, 0, 0, 5] } }
      = some true) ▸
   (eval_negate .G_LITTLE_ENDIAN
      { super := { comp := false },
        address := [32, 1, 13, 184, 0, 0, 0, 0, 0, 0, 0, 0, 0, 0, 0, 0],
        prefix_ := 32, is_valid := true }
      { saddr := some { sa_family := AF_INET6,
                        sin6_addr := [32, 1, 13, 184, 18, 52, 0, 0, 0, 0, 0, 0, 0, 0, 0, 5] } }).1⟩


/-- C15, at two literals. `2001:db8::/0000..0032` has 52 characters, so the
whole literal goes through `strcpy`, which needs 53 octets of the 46-octet
buffer. `0000:..:0/64` has 49 characters with its slash at offset 46, so the
terminator is written at `address[46]`. Neither call has a defined result. -/
theorem new_overruns_address_buffer :
    strlen "2001:db8::/00000000000000000000000000000000000000032".toList = 52 ∧
    strcpy INET6_ADDRSTRLEN "2001:db8::/00000000000000000000000000000000000000032".toList
      = none ∧
    filter_netmask6_new .G_LITTLE_ENDIAN inet_pton6
      "2001:db8::/00000000000000000000000000000000000000032".toList = none ∧
    strlen "0000:0000:0000:0000:0000:0000:0000:0000:0000:0/64".toList = 49 ∧
    strchr "0000:0000:0000:0000:0000:0000:0000:0000:0000:0/64".toList '/' = some 46 ∧
    long_to_int (atol "64".toList) = 64 ∧
    set_nul INET6_ADDRSTRLEN
      ("0000:0000:0000:0000:0000:0000:0000:0000:0000:0/64".toList.take 46) 46 = none ∧
    filter_netmask6_new .G_LITTLE_ENDIAN inet_pton6
      "0000:0000:0000:0000:0000:0000:0000:0000:0000:0/64".toList = none := by
  decide

/-- C16: for every literal, every `inet_pton` and either byte order. In the
constructor, the call of `_get_network_address` is made only after the copy
left a non-empty string in `address`, and then the argument handed to
`_calculate_mask_by_prefix` lies in `1..64`, the shift count `64 - argument` in
`0..63`, and the mask is defined. For every node the constructor returns,
`_eval` is defined on every message and with either negate flag, and if the
node is valid the argument of the call lies in `1..64` again. -/
theorem calculate_mask_argument_in_range (bo : ByteOrder)
    (inet_pton : List Char → Option (List Nat)) (cidr : List Char) :
    (∀ address q, address_copy cidr = some (address, q) → strlen address > 0 →
      1 ≤ mask_argument q ∧ mask_argument q ≤ 64 ∧
      0 ≤ 64 - mask_argument q ∧ 64 - mask_argument q ≤ 63 ∧
      (∃ m, _calculate_mask_by_prefix (mask_argument q) = some m) ∧
      ∃ s, filter_netmask6_new bo inet_pton cidr = some s ∧ s.prefix_ = q) ∧
    (∀ s, filter_netmask6_new bo inet_pton cidr = some s →
      (s.is_valid = true →
        1 ≤ mask_argument s.prefix_ ∧ mask_argument s.prefix_ ≤ 64 ∧
        0 ≤ 64 - mask_argument s.prefix_ ∧ 64 - mask_argument s.prefix_ ≤ 63 ∧
        ∃ m, _calculate_mask_by_prefix (mask_argument s.prefix_) = some m) ∧
      ∀ msg n, ∃ r, _eval bo { s with super := { comp := n } } msg = some r) := by
  have hmask : ∀ q : Int, 1 ≤ q → q ≤ 128 →
      1 ≤ mask_argument q ∧ mask_argument q ≤ 64 ∧
      0 ≤ 64 - mask_argument q ∧ 64 - mask_argument q ≤ 63 ∧
      ∃ m, _calculate_mask_by_prefix (mask_argument q) = some m := by
    intro q h1 h2
    obtain ⟨ha, hb⟩ := mask_argument_range q h1 h2
    refine ⟨ha, hb, by omega, by omega, ?_⟩
    unfold _calculate_mask_by_prefix
    rw [if_pos (by omega)]
    exact ⟨_, rfl⟩
  constructor
  · intro address q hc hlen
    obtain ⟨h1, h2⟩ := address_copy_range cidr address q hc (List.length_pos.mp hlen)
    obtain ⟨ha, hb, hc1, hc2, hm⟩ := hmask q h1 h2
    refine ⟨ha, hb, hc1, hc2, hm, ?_⟩
    rw [new_eq_copy_bind, hc]
    simp only [Option.some_bind, if_pos hlen]
    cases hp : inet_pton address with
    | none => exact ⟨_, rfl, rfl⟩
    | some packet =>
      obtain ⟨net, hn⟩ := get_network_address_some bo packet in6_zero q h1 h2
      simp only [hn, Option.map_some']
      exact ⟨_, rfl, rfl⟩
  · intro s hs
    obtain ⟨_, hvalid, _⟩ := new_cases bo inet_pton cidr s hs
    refine ⟨fun hv => ?_, fun msg n => ?_⟩
    · obtain ⟨h1, h2, _⟩ := hvalid hv
      exact hmask s.prefix_ h1 h2
    · have hp : s.is_valid = true → 1 ≤ s.prefix_ ∧ s.prefix_ ≤ 128 := fun hv =>
        ⟨(hvalid hv).1, (hvalid hv).2.1⟩
      have hsome : s.is_valid = true →
          ∀ c, ∃ net, _get_network_address bo c s.prefix_ in6_zero = some net :=
        fun hv c => get_network_address_some bo c in6_zero s.prefix_ (hp hv).1 (hp hv).2
      unfold _eval
      cases hv : s.is_valid
      · simp
      · cases hm : msg.saddr with
        | none =>
          obtain ⟨net, hn⟩ := hsome hv in6addr_loopback
          simp [hn]
        | some sa =>
          by_cases h6 : g_sockaddr_inet6_check sa = true
          · obtain ⟨net, hn⟩ := hsome hv sa.sin6_addr
            simp [h6, hn]
          · by_cases hu : sa.sa_family = AF_UNIX
            · obtain ⟨net, hn⟩ := hsome hv in6addr_loopback
              simp [h6, hu, hn]
            · simp [h6, hu]

/-- Witness for C16 on the literal `fe80::1/100`: the copy leaves `fe80::1`
and prefix 100, the argument of the call is 36, and `_eval` on the node
returned is defined. -/
theorem calculate_mask_argument_in_range_witness :
    address_copy "fe80::1/100".toList = some ("fe80::1".toList, 100) ∧
    mask_argument 100 = 36 ∧
    ∃ s, filter_netmask6_new .G_BIG_ENDIAN inet_pton6 "fe80::1/100".toList = some s ∧
      s.prefix_ = 100 :=
  ⟨by decide, by decide,
   ((calculate_mask_argument_in_range .G_BIG_ENDIAN inet_pton6 "fe80::1/100".toList).1
      "fe80::1".toList 100 (by decide) (by decide)).2.2.2.2.2⟩

/-- C17: for every address read, every prefix in `1..64` and either byte order,
there are eight octets `w`, the same for every destination, such that the call
leaves `w` in the first eight octets of the destination and the last eight as
they were; they are zero when the destination was zero-filled, as it is in
both callers. -/
theorem get_network_address_frame (bo : ByteOrder) (a : List Nat) (q : Int)
    (h1 : 1 ≤ q) (h2 : q ≤ 64) :
    ∃ w : List Nat, w.length = 8 ∧
      ∀ dst : List Nat, ∃ net, _get_network_address bo a q dst = some net ∧
        net.take 8 = w ∧ net.drop 8 = dst.drop 8 ∧
        (dst = in6_zero → net.drop 8 = List.replicate 8 0) := by
  have hq : q = ((q.toNat : Nat) : Int) := by omega
  refine ⟨store64 bo (_mask bo (load64 bo (a.take 8)) (word_mask q.toNat)),
    store64_length _ _, fun dst => ?_⟩
  refine ⟨store64 bo (_mask bo (load64 bo (a.take 8)) (word_mask q.toNat)) ++ dst.drop 8,
    ?_, ?_, ?_, ?_⟩
  · rw [hq]
    exact get_network_address_low bo a dst q.toNat (by omega) (by omega)
  · exact List.take_left' (store64_length _ _)
  · exact List.drop_left' (store64_length _ _)
  · intro hd
    rw [List.drop_left' (store64_length _ _), hd]
    decide

/-- Witness for C17: prefix 32 on `2001:db8:1234::5` into a destination filled
with `ff` leaves `20 01 0d b8 00 00 00 00 ff ff ff ff ff ff ff ff`. -/
theorem get_network_address_frame_witness :
    _get_network_address .G_LITTLE_ENDIAN
        [32, 1, 13, 184, 18, 52, 0, 0, 0, 0, 0, 0, 0, 0, 0, 5] 32 (List.replicate 16 255)
      = some [32, 1, 13, 184, 0, 0, 0, 0, 255, 255, 255, 255, 255, 255, 255, 255] ∧
    ∃ w : List Nat, w.length = 8 ∧
      ∀ dst : List Nat, ∃ net,
        _get_network_address .G_LITTLE_ENDIAN
          [32, 1, 13, 184, 18, 52, 0, 0, 0, 0, 0, 0, 0, 0, 0, 5] 32 dst = some net ∧
        net.take 8 = w ∧ net.drop 8 = dst.drop 8 ∧
        (dst = in6_zero → net.drop 8 = List.replicate 8 0) :=
  ⟨by decide,
   get_network_address_frame .G_LITTLE_ENDIAN
     [32, 1, 13, 184, 18, 52, 0, 0, 0, 0, 0, 0, 0, 0, 0, 5] 32 (by decide) (by decide)⟩

/-- C18, on a big-endian host: masking `fe80::200:5eff:fe00:5301` with prefix
64 and the result with prefix 16 leaves the zero address, while masking it with
prefix 16 alone leaves `00 00 00 00 00 00 80 fe 00 ..`. -/
theorem get_network_address_big_endian_nested :
    _get_network_address .G_BIG_ENDIAN
        [254, 128, 0, 0, 0, 0, 0, 0, 2, 0, 94, 255, 254, 0, 83, 1] 64 in6_zero
      = some [0, 0, 0, 0, 0, 0, 128, 254, 0, 0, 0, 0, 0, 0, 0, 0] ∧
    _get_network_address .G_BIG_ENDIAN
        [0, 0, 0, 0, 0, 0, 128, 254, 0, 0, 0, 0, 0, 0, 0, 0] 16 in6_zero
      = some [0, 0, 0, 0, 0, 0, 0, 0, 0, 0, 0, 0, 0, 0, 0, 0] ∧
    _get_network_address .G_BIG_ENDIAN
        [254, 128, 0, 0, 0, 0, 0, 0, 2, 0, 94, 255, 254, 0, 83, 1] 16 in6_zero
      = some [0, 0, 0, 0, 0, 0, 128, 254, 0, 0, 0, 0, 0, 0, 0, 0] := by
  decide

end Netmask6
